import Mathlib

/-!
Verification development for Azurite's blob-versioning feature.

Part 1 embeds `parseBlobVersioning` from
`src/common/EnvironmentFunctions.ts`, the flag parser that turns a
`blobVersioning` configuration value into a boolean (or `undefined`).

Part 2 models the versioning and conditional-mutation engine that the
test suite `BlockBlobVersioningAPIs` exercises.  The engine itself is
not part of the sources at hand (only its tests are), so those
definitions are modelled from the specification: the version chain, the
version-identity generator, the ETag generator, the condition
evaluator, and the mutation coordinator.
-/

/-- A JavaScript value, as far as `parseBlobVersioning` can observe it:
`undefined`, a boolean, a string, a number, `null`, or an object. -/
inductive JSValue where
  | undef
  | boolean (b : Bool)
  | str (s : String)
  | number (n : Int)
  | nullV
  | object (fields : List (String × String))
deriving DecidableEq, Repr

/-- A flags object: an association of property names to values. -/
abbrev Flags := List (String × JSValue)

/-- Property access `flags.key`: a missing property reads as `undefined`,
exactly like `flags?.blobVersioning` in the source. -/
def getFlag (flags : Flags) (key : String) : JSValue :=
  match flags.find? (fun kv => kv.fst == key) with
  | some kv => kv.snd
  | none => JSValue.undef

/-- JavaScript's `value.toLowerCase()`: lowercase the string character
by character. -/
def jsToLowerCase (s : String) : String :=
  String.mk (s.data.map Char.toLower)

/-- The body of `parseBlobVersioning` after `const value =
flags?.blobVersioning`: return `undefined` as-is, return booleans as-is,
lowercase strings and accept exactly "true" and "false", and throw on
everything else (numbers, `null`, objects, other strings). -/
def parseBlobVersioningValue : JSValue → Except String (Option Bool)
  | JSValue.undef => Except.ok none
  | JSValue.boolean b => Except.ok (some b)
  | JSValue.str s =>
    let lowercased := jsToLowerCase s
    if lowercased = "true" then Except.ok (some true)
    else if lowercased = "false" then Except.ok (some false)
    else Except.error "Invalid blobVersioning value. Must be true or false."
  | JSValue.number _ => Except.error "blobVersioning must be a boolean value (true or false)"
  | JSValue.nullV => Except.error "blobVersioning must be a boolean value (true or false)"
  | JSValue.object _ => Except.error "blobVersioning must be a boolean value (true or false)"

/-- The function `parseBlobVersioning(flags)` from
`EnvironmentFunctions.ts`: reads `flags?.blobVersioning` and interprets
it. -/
def parseBlobVersioning (flags : Flags) : Except String (Option Bool) :=
  parseBlobVersioningValue (getFlag flags "blobVersioning")

/-- Whether `parseBlobVersioning` throws on the given flags. -/
def parseThrows (flags : Flags) : Bool :=
  match parseBlobVersioning flags with
  | Except.error _ => true
  | Except.ok _ => false

/-- The values of `flags.blobVersioning` on which the parser is expected
to throw: anything defined that is neither a boolean nor a string whose
lowercase form is "true" or "false". -/
def blobVersioningInvalid : JSValue → Bool
  | JSValue.undef => false
  | JSValue.boolean _ => false
  | JSValue.str s => !(jsToLowerCase s == "true" || jsToLowerCase s == "false")
  | JSValue.number _ => true
  | JSValue.nullV => true
  | JSValue.object _ => true

/-- C8: if the `blobVersioning` key is absent or bound to `undefined`,
`parseBlobVersioning` returns `undefined` (here `none`) without throwing. -/
theorem parseBlobVersioning_undefined (flags : Flags)
    (h : getFlag flags "blobVersioning" = JSValue.undef) :
    parseBlobVersioning flags = Except.ok none := by
  unfold parseBlobVersioning
  rw [h]
  rfl

theorem parseBlobVersioning_undefined_witness :
    getFlag [] "blobVersioning" = JSValue.undef ∧
      parseBlobVersioning [] = Except.ok none :=
  ⟨by decide, parseBlobVersioning_undefined [] (by decide)⟩

/-- C9: a boolean `blobVersioning` value is returned unchanged, and a
string value is matched case-insensitively: any string lowercasing to
"true" yields `true` and any string lowercasing to "false" yields
`false`. -/
theorem parseBlobVersioning_defined_values :
    (∀ flags b, getFlag flags "blobVersioning" = JSValue.boolean b →
      parseBlobVersioning flags = Except.ok (some b)) ∧
    (∀ flags s, getFlag flags "blobVersioning" = JSValue.str s →
      jsToLowerCase s = "true" → parseBlobVersioning flags = Except.ok (some true)) ∧
    (∀ flags s, getFlag flags "blobVersioning" = JSValue.str s →
      jsToLowerCase s = "false" → parseBlobVersioning flags = Except.ok (some false)) := by
  refine ⟨fun flags b h => ?_, fun flags s h hl => ?_, fun flags s h hl => ?_⟩
  · unfold parseBlobVersioning
    rw [h]
    rfl
  · unfold parseBlobVersioning
    rw [h]
    simp [parseBlobVersioningValue, hl]
  · unfold parseBlobVersioning
    rw [h]
    simp [parseBlobVersioningValue, hl]

theorem parseBlobVersioning_defined_values_witness :
    parseBlobVersioning [("blobVersioning", JSValue.boolean false)] =
        Except.ok (some false) ∧
      parseBlobVersioning [("blobVersioning", JSValue.str "TRUE")] =
        Except.ok (some true) ∧
      parseBlobVersioning [("blobVersioning", JSValue.str "False")] =
        Except.ok (some false) :=
  ⟨parseBlobVersioning_defined_values.1 _ false (by decide),
   parseBlobVersioning_defined_values.2.1 _ "TRUE" (by decide) (by decide),
   parseBlobVersioning_defined_values.2.2 _ "False" (by decide) (by decide)⟩

/-- C10: `parseBlobVersioning` throws if and only if `flags.blobVersioning`
is defined and is neither a boolean nor a string whose lowercase form is
"true" or "false"; in particular numbers, objects, `null`, and every
other string make it throw. -/
theorem parseBlobVersioning_throws_iff (flags : Flags) :
    parseThrows flags = blobVersioningInvalid (getFlag flags "blobVersioning") := by
  unfold parseThrows parseBlobVersioning
  cases hv : getFlag flags "blobVersioning" with
  | undef => rfl
  | boolean b => rfl
  | str s =>
    by_cases ht : jsToLowerCase s = "true"
    · simp [parseBlobVersioningValue, blobVersioningInvalid, ht]
    · by_cases hf : jsToLowerCase s = "false"
      · simp [parseBlobVersioningValue, blobVersioningInvalid, ht, hf]
      · simp [parseBlobVersioningValue, blobVersioningInvalid, ht, hf]
  | number n => rfl
  | nullV => rfl
  | object fields => rfl

/-!
Part 2: the versioning and conditional-mutation engine, modelled from
the spec (the implementation is not among the sources; only its test
suite is).  Content is a string of bytes, metadata and tags are
association lists, and all operations are pure state transformers on a
per-blob version chain.
-/

/-- Modelled from the spec: the `httpHeaders` structured set of a
version (contentType, contentLanguage, cacheControl, contentEncoding,
contentDisposition, contentMD5), snapshot at creation time. -/
structure HttpHeaders where
  contentType : Option String
  contentLanguage : Option String
  cacheControl : Option String
  contentEncoding : Option String
  contentDisposition : Option String
  contentMD5 : Option String
deriving DecidableEq, Repr

/-- The header set with every field absent. -/
def noHeaders : HttpHeaders :=
  ⟨none, none, none, none, none, none⟩

/-- Modelled from the spec: one immutable `BlobVersion` record — the
version identifier, the byte payload, its length, metadata, headers,
tags (the one mutable cell), and the derived etag. -/
structure BlobVersion where
  versionId : String
  content : String
  contentLength : Nat
  metadata : List (String × String)
  httpHeaders : HttpHeaders
  tags : List (String × String)
  etag : String
deriving DecidableEq, Repr

/-- Modelled from the spec: a `BlobVersionChain` — the append-only
ordered sequence of versions of one blob, the `currentVersionId`
pointer, and the per-chain sequence counter used by VersionIdentity. -/
structure BlobVersionChain where
  versions : List BlobVersion
  currentVersionId : Option String
  seq : Nat
deriving DecidableEq, Repr

/-- The chain of a blob that does not exist yet: no versions, no
current pointer, counter at zero. -/
def emptyChain : BlobVersionChain :=
  ⟨[], none, 0⟩

/-- Modelled from the spec: `VersionIdentity.next` — the identifier
issued for the n-th version of a chain.  The spec requires only that
each identifier sorts lexicographically after every previously issued
identifier of the chain, ties broken by the per-chain sequence counter;
the timestamp component is abstracted away and the counter `n` is
rendered as a string whose lexicographic order agrees with the order on
`n`. -/
def versionIdOfSeq (n : Nat) : String :=
  String.mk (List.replicate (n + 1) 'v')

/-- Modelled from the spec: `ETagGenerator.derive`.  The spec allows a
fresh etag for every version ("identical inputs are not required to
reuse an old ETag"), and its testable properties require that the etag
of a newly published version differ from the previous current etag, so
the etag is modelled as unique per version, derived from the version's
identifier. -/
def etagOfId (versionId : String) : String :=
  String.mk ('e' :: versionId.data)

/-- A draft version: the submitted content, headers, and metadata from
which `SnapshotStore.createVersion` builds the immutable record. -/
structure Draft where
  content : String
  httpHeaders : HttpHeaders
  metadata : List (String × String)
deriving DecidableEq, Repr

/-- Modelled from the spec: `SnapshotStore.createVersion` — allocate the
immutable version record for a draft, with `versionId` from
VersionIdentity, `etag` from ETagGenerator, and an empty tag set. -/
def createVersion (c : BlobVersionChain) (d : Draft) : BlobVersion :=
  { versionId := versionIdOfSeq c.seq
    content := d.content
    contentLength := d.content.length
    metadata := d.metadata
    httpHeaders := d.httpHeaders
    tags := []
    etag := etagOfId (versionIdOfSeq c.seq) }

/-- Modelled from the spec: append the new record and
`SnapshotStore.publish` — atomically advance `currentVersionId` to it,
bumping the per-chain counter. -/
def appendAndPublish (c : BlobVersionChain) (v : BlobVersion) : BlobVersionChain :=
  { versions := c.versions ++ [v]
    currentVersionId := some v.versionId
    seq := c.seq + 1 }

/-- Modelled from the spec: `SnapshotStore.getByVersionId` — look a
version up by its identifier; `none` for unknown identifiers. -/
def getByVersionId (c : BlobVersionChain) (vid : String) : Option BlobVersion :=
  c.versions.find? (fun v => v.versionId == vid)

/-- Modelled from the spec: `SnapshotStore.getCurrent` — resolve the
`currentVersionId` pointer; `none` when the blob has no version. -/
def getCurrent (c : BlobVersionChain) : Option BlobVersion :=
  match c.currentVersionId with
  | none => none
  | some vid => getByVersionId c vid

/-- Modelled from the spec: `SnapshotStore.setTags` — replace the tag
set of the version with the given identifier, creating no new version
and touching no other field. -/
def setTags (c : BlobVersionChain) (vid : String) (tags : List (String × String)) :
    BlobVersionChain :=
  { c with versions :=
      c.versions.map fun v =>
        if v.versionId == vid then { v with tags := tags } else v }

/-- Modelled from the spec: the supported precondition kinds — ETag
match, ETag non-match, and a conjunction of tag equalities. -/
inductive Precondition where
  | ifMatch (etag : String)
  | ifNoneMatch (etag : String)
  | tagExpression (conds : List (String × String))
deriving DecidableEq, Repr

/-- Whether a tag set satisfies a conjunction of `key='value'`
equalities; absence of a required key is a non-match. -/
def tagsSatisfy (tags : List (String × String)) (conds : List (String × String)) : Bool :=
  conds.all fun kv =>
    match tags.find? (fun t => t.fst == kv.fst) with
    | some t => t.snd == kv.snd
    | none => false

/-- The outcome of condition evaluation. -/
inductive CheckResult where
  | admitted
  | reject
deriving DecidableEq, Repr

/-- Modelled from the spec: evaluation of one precondition against the
current version (`none` when the blob does not exist): `ifMatch` admits
iff a current version exists with the given etag, `ifNoneMatch` admits
iff the current etag differs or the blob does not exist, and a tag
expression admits iff the current version's tags satisfy it. -/
def checkOne (cur : Option BlobVersion) : Precondition → Bool
  | Precondition.ifMatch e =>
    match cur with
    | some v => v.etag == e
    | none => false
  | Precondition.ifNoneMatch e =>
    match cur with
    | some v => v.etag != e
    | none => true
  | Precondition.tagExpression conds =>
    match cur with
    | some v => tagsSatisfy v.tags conds
    | none => false

/-- Modelled from the spec: `ConditionEvaluator.check` — all supplied
preconditions must hold against the current version; an empty set
always admits. -/
def checkConditions (c : BlobVersionChain) (pres : List Precondition) : CheckResult :=
  if pres.all (checkOne (getCurrent c)) then CheckResult.admitted else CheckResult.reject

/-- The caller-visible errors of the mutation path. -/
inductive MutError where
  | preconditionFailed
  | notFound
deriving DecidableEq, Repr

/-- Modelled from the spec: the three mutating entry points of
`MutationCoordinator` — whole-content upload, block-list commit, and
copy from a (possibly historical) source version. -/
inductive MutationOp where
  | uploadContent (bytes : String) (httpHeaders : HttpHeaders)
      (metadata : List (String × String))
  | commitBlockList (orderedBlockIds : List String) (httpHeaders : HttpHeaders)
      (metadata : List (String × String))
  | copyInto (sourceVersion : BlobVersion)
deriving DecidableEq, Repr

/-- The block-staging collaborator: an association of block ids to
staged payloads. -/
abbrev Stage := List (String × String)

/-- Modelled from the spec: `getStagedBlock(blockId) → bytes | NotFound`. -/
def getStagedBlock (stage : Stage) (blockId : String) : Option String :=
  match stage.find? (fun b => b.fst == blockId) with
  | some b => some b.snd
  | none => none

/-- Concatenate the staged payloads of the given block ids in order;
`notFound` if any id has no staged block. -/
def concatBlocks (stage : Stage) : List String → Except MutError String
  | [] => Except.ok ""
  | blockId :: rest =>
    match getStagedBlock stage blockId with
    | none => Except.error MutError.notFound
    | some payload =>
      match concatBlocks stage rest with
      | Except.error e => Except.error e
      | Except.ok s => Except.ok (payload ++ s)

/-- Modelled from the spec: draft construction per entry point — bytes
verbatim for upload, ordered concatenation of staged blocks for a
block-list commit, and the source version's content, headers, and
metadata verbatim for a copy. -/
def buildDraft (stage : Stage) : MutationOp → Except MutError Draft
  | MutationOp.uploadContent bytes h m => Except.ok ⟨bytes, h, m⟩
  | MutationOp.commitBlockList ids h m =>
    match concatBlocks stage ids with
    | Except.error e => Except.error e
    | Except.ok content => Except.ok ⟨content, h, m⟩
  | MutationOp.copyInto src => Except.ok ⟨src.content, src.httpHeaders, src.metadata⟩

/-- Modelled from the spec: `MutationCoordinator` — evaluate the
preconditions against the current version, then build the draft, then
create and publish the new version; a rejection or failure returns the
chain unchanged. -/
def runMutation (stage : Stage) (c : BlobVersionChain) (op : MutationOp)
    (pres : List Precondition) : BlobVersionChain × Except MutError BlobVersion :=
  match checkConditions c pres with
  | CheckResult.reject => (c, Except.error MutError.preconditionFailed)
  | CheckResult.admitted =>
    match buildDraft stage op with
    | Except.error e => (c, Except.error e)
    | Except.ok d =>
      let v := createVersion c d
      (appendAndPublish c v, Except.ok v)

/-- Run a sequence of mutation requests, each against the chain state
left by the previous one (failed requests leave the chain unchanged). -/
def runMutations (stage : Stage) (c : BlobVersionChain) :
    List (MutationOp × List Precondition) → BlobVersionChain
  | [] => c
  | (op, pres) :: rest => runMutations stage (runMutation stage c op pres).fst rest

/-- The well-formedness invariant of a reachable chain: the version
list carries exactly the identifiers issued by VersionIdentity for
sequence numbers `0, …, seq - 1` in order, every stored etag is the one
derived from its version's identifier, and the current pointer names
the most recently appended version (or nothing on an empty chain). -/
def ChainWF (c : BlobVersionChain) : Prop :=
  c.versions.map (fun v => v.versionId) = (List.range c.seq).map versionIdOfSeq ∧
  (∀ v ∈ c.versions, v.etag = etagOfId v.versionId) ∧
  c.currentVersionId = c.versions.getLast?.map (fun v => v.versionId)

/-! Supporting lemmas about version identifiers, etags, and the chain
invariant. -/

theorem versionIdOfSeq_length (n : Nat) : (versionIdOfSeq n).length = n + 1 := by
  simp [versionIdOfSeq, String.length]

theorem versionIdOfSeq_injective {m n : Nat}
    (h : versionIdOfSeq m = versionIdOfSeq n) : m = n := by
  have := congrArg String.length h
  rw [versionIdOfSeq_length, versionIdOfSeq_length] at this
  omega

theorem lex_replicate (c : Char) :
    ∀ m n, m < n → List.Lex (· < ·) (List.replicate m c) (List.replicate n c) := by
  intro m
  induction m with
  | zero =>
    intro n hn
    match n, hn with
    | k + 1, _ => exact List.Lex.nil
  | succ m ih =>
    intro n hn
    match n, hn with
    | k + 1, hk =>
      exact List.Lex.cons (ih k (Nat.lt_of_succ_lt_succ hk))

theorem versionIdOfSeq_lt {m n : Nat} (h : m < n) :
    versionIdOfSeq m < versionIdOfSeq n := by
  rw [String.lt_iff_toList_lt]
  exact lex_replicate 'v' (m + 1) (n + 1) (Nat.succ_lt_succ h)

theorem etagOfId_injective {a b : String} (h : etagOfId a = etagOfId b) : a = b := by
  have hd : ('e' :: a.data) = ('e' :: b.data) := congrArg String.data h
  have hdata : a.data = b.data := by injection hd
  rcases a with ⟨da⟩
  rcases b with ⟨db⟩
  exact congrArg String.mk hdata

theorem chainWF_empty : ChainWF emptyChain := by
  refine ⟨rfl, ?_, rfl⟩
  intro v hv
  simp [emptyChain] at hv

/-- The identifier about to be issued never collides with one already
in a well-formed chain. -/
theorem fresh_id_not_mem {c : BlobVersionChain} (hwf : ChainWF c) :
    versionIdOfSeq c.seq ∉ c.versions.map (fun v => v.versionId) := by
  rw [hwf.1]
  intro hmem
  rcases List.mem_map.mp hmem with ⟨i, hi, hieq⟩
  have : i = c.seq := versionIdOfSeq_injective hieq
  rw [this] at hi
  exact absurd (List.mem_range.mp hi) (Nat.lt_irrefl _)

/-- A successful `runMutation` decomposes into an admitted check, an
accepted draft, version creation, and publication. -/
theorem runMutation_ok {stage : Stage} {c : BlobVersionChain} {op : MutationOp}
    {pres : List Precondition} {c' : BlobVersionChain} {v : BlobVersion}
    (h : runMutation stage c op pres = (c', Except.ok v)) :
    ∃ d, checkConditions c pres = CheckResult.admitted ∧
      buildDraft stage op = Except.ok d ∧
      v = createVersion c d ∧ c' = appendAndPublish c v := by
  unfold runMutation at h
  cases hc : checkConditions c pres with
  | reject => rw [hc] at h; simp at h
  | admitted =>
    rw [hc] at h
    cases hd : buildDraft stage op with
    | error e => rw [hd] at h; simp at h
    | ok d =>
      rw [hd] at h
      simp only [Prod.mk.injEq, Except.ok.injEq] at h
      refine ⟨d, rfl, rfl, h.2.symm, ?_⟩
      rw [← h.1, h.2]

/-- A failed `runMutation` leaves the chain unchanged. -/
theorem runMutation_fst {stage : Stage} {c : BlobVersionChain} {op : MutationOp}
    {pres : List Precondition} :
    (runMutation stage c op pres).fst = c ∨
      ∃ d, (runMutation stage c op pres).fst =
        appendAndPublish c (createVersion c d) := by
  unfold runMutation
  cases checkConditions c pres with
  | reject => exact Or.inl rfl
  | admitted =>
    cases buildDraft stage op with
    | error e => exact Or.inl rfl
    | ok d => exact Or.inr ⟨d, rfl⟩

/-- Appending a freshly created version preserves the chain invariant. -/
theorem chainWF_appendAndPublish {c : BlobVersionChain} (hwf : ChainWF c) (d : Draft) :
    ChainWF (appendAndPublish c (createVersion c d)) := by
  obtain ⟨hids, hetags, hcur⟩ := hwf
  refine ⟨?_, ?_, ?_⟩
  · simp only [appendAndPublish, List.map_append, hids, List.range_succ]
    rfl
  · intro v hv
    rcases List.mem_append.mp hv with hv | hv
    · exact hetags v hv
    · rcases List.mem_singleton.mp hv with rfl
      rfl
  · simp only [appendAndPublish, List.getLast?_concat, Option.map_some']

/-- The chain invariant is preserved by any single mutation request. -/
theorem chainWF_runMutation {stage : Stage} {c : BlobVersionChain} {op : MutationOp}
    {pres : List Precondition} (hwf : ChainWF c) :
    ChainWF (runMutation stage c op pres).fst := by
  rcases @runMutation_fst stage c op pres with h | ⟨d, h⟩
  · rw [h]; exact hwf
  · rw [h]; exact chainWF_appendAndPublish hwf d

/-- The chain invariant is preserved by any sequence of mutation
requests. -/
theorem chainWF_runMutations {stage : Stage} {c : BlobVersionChain}
    (hwf : ChainWF c) (ops : List (MutationOp × List Precondition)) :
    ChainWF (runMutations stage c ops) := by
  induction ops generalizing c with
  | nil => exact hwf
  | cons p rest ih =>
    rcases p with ⟨op, pres⟩
    exact ih (chainWF_runMutation hwf)

/-- Looking up a freshly published version finds exactly it. -/
theorem getByVersionId_append_fresh {c : BlobVersionChain} (hwf : ChainWF c)
    (v : BlobVersion) (hv : v.versionId = versionIdOfSeq c.seq) :
    getByVersionId (appendAndPublish c v) v.versionId = some v := by
  unfold getByVersionId appendAndPublish
  rw [List.find?_append]
  have hnone : c.versions.find? (fun w => w.versionId == v.versionId) = none := by
    rw [List.find?_eq_none]
    intro x hx hbeq
    have hxid : x.versionId = v.versionId := by simpa using hbeq
    apply fresh_id_not_mem hwf
    rw [← hv, ← hxid]
    exact List.mem_map.mpr ⟨x, hx, rfl⟩
  rw [hnone]
  simp [List.find?]

/-- After a successful mutation the current version is the new one. -/
theorem getCurrent_after_ok {stage : Stage} {c : BlobVersionChain} {op : MutationOp}
    {pres : List Precondition} {c' : BlobVersionChain} {v : BlobVersion}
    (hwf : ChainWF c) (h : runMutation stage c op pres = (c', Except.ok v)) :
    getCurrent c' = some v := by
  rcases runMutation_ok h with ⟨d, _, _, hv, hc'⟩
  subst hc'
  unfold getCurrent
  simp only [appendAndPublish]
  exact getByVersionId_append_fresh hwf v (by rw [hv]; rfl)

/-- An existing version lookup is unchanged by a further mutation. -/
theorem getByVersionId_runMutation {stage : Stage} {c : BlobVersionChain}
    {op : MutationOp} {pres : List Precondition} {vid : String} {v : BlobVersion}
    (h : getByVersionId c vid = some v) :
    getByVersionId (runMutation stage c op pres).fst vid = some v := by
  rcases @runMutation_fst stage c op pres with heq | ⟨d, heq⟩
  · rw [heq]; exact h
  · rw [heq]
    unfold getByVersionId at h ⊢
    unfold appendAndPublish
    rw [List.find?_append, h]
    rfl

/-- An existing version lookup is unchanged by any sequence of further
mutations. -/
theorem getByVersionId_runMutations {stage : Stage} {c : BlobVersionChain}
    {vid : String} {v : BlobVersion} (h : getByVersionId c vid = some v)
    (ops : List (MutationOp × List Precondition)) :
    getByVersionId (runMutations stage c ops) vid = some v := by
  induction ops generalizing c with
  | nil => exact h
  | cons p rest ih =>
    rcases p with ⟨op, pres⟩
    exact ih (getByVersionId_runMutation h)

/-- Identifiers already in the chain survive any sequence of further
mutations. -/
theorem mem_ids_runMutations {stage : Stage} {c : BlobVersionChain} {x : String}
    (h : x ∈ c.versions.map (fun v => v.versionId))
    (ops : List (MutationOp × List Precondition)) :
    x ∈ (runMutations stage c ops).versions.map (fun v => v.versionId) := by
  induction ops generalizing c with
  | nil => exact h
  | cons p rest ih =>
    rcases p with ⟨op, pres⟩
    apply ih
    rcases @runMutation_fst stage c op pres with heq | ⟨d, heq⟩
    · rw [heq]; exact h
    · rw [heq]
      simp only [appendAndPublish, List.map_append]
      exact List.mem_append_left _ h

/-- The current version is one of the chain's version records. -/
theorem getCurrent_mem {c : BlobVersionChain} {cur : BlobVersion}
    (h : getCurrent c = some cur) : cur ∈ c.versions := by
  unfold getCurrent at h
  cases hc : c.currentVersionId with
  | none => rw [hc] at h; exact absurd h (by simp)
  | some vid =>
    rw [hc] at h
    exact List.mem_of_find?_eq_some h

/-- No stored version's etag equals the etag the next published version
will carry. -/
theorem cur_etag_ne_fresh {c : BlobVersionChain} {cur : BlobVersion}
    (hwf : ChainWF c) (hmem : cur ∈ c.versions) :
    cur.etag ≠ etagOfId (versionIdOfSeq c.seq) := by
  intro heq
  have hetag := hwf.2.1 cur hmem
  rw [hetag] at heq
  have hid : cur.versionId = versionIdOfSeq c.seq := etagOfId_injective heq
  apply fresh_id_not_mem hwf
  rw [← hid]
  exact List.mem_map.mpr ⟨cur, hmem, rfl⟩

/-- C1: every successful mutating operation (upload, block-list commit,
or copy) publishes a version whose versionId differs from every
previously issued versionId of the chain, and `getCurrent` afterwards
returns exactly that new version. -/
theorem mutation_creates_fresh_current (stage : Stage) (c : BlobVersionChain)
    (op : MutationOp) (pres : List Precondition) (c' : BlobVersionChain)
    (v : BlobVersion) (hwf : ChainWF c)
    (h : runMutation stage c op pres = (c', Except.ok v)) :
    v.versionId ∉ c.versions.map (fun w => w.versionId) ∧ getCurrent c' = some v := by
  rcases runMutation_ok h with ⟨d, _, _, hv, _⟩
  constructor
  · rw [hv]
    exact fresh_id_not_mem hwf
  · exact getCurrent_after_ok hwf h

/-- C2: a published version's content, httpHeaders, and metadata are
exactly the submitted draft's, and `getByVersionId` keeps returning
them unchanged after any number of later mutations on the chain. -/
theorem version_history_preserved (stage stage2 : Stage) (c : BlobVersionChain)
    (op : MutationOp) (pres : List Precondition) (c' : BlobVersionChain)
    (v : BlobVersion) (d : Draft) (hwf : ChainWF c)
    (hd : buildDraft stage op = Except.ok d)
    (h : runMutation stage c op pres = (c', Except.ok v)) :
    v.content = d.content ∧ v.httpHeaders = d.httpHeaders ∧ v.metadata = d.metadata ∧
    ∀ later, ∃ v', getByVersionId (runMutations stage2 c' later) v.versionId = some v' ∧
      v'.content = d.content ∧ v'.httpHeaders = d.httpHeaders ∧
      v'.metadata = d.metadata := by
  rcases runMutation_ok h with ⟨d0, _, hd0, hv, hc'⟩
  rw [hd] at hd0
  injection hd0 with hd0
  subst hd0
  subst hv
  refine ⟨rfl, rfl, rfl, fun later => ?_⟩
  have hfind : getByVersionId c' (createVersion c d).versionId =
      some (createVersion c d) := by
    rw [hc']
    exact getByVersionId_append_fresh hwf _ rfl
  exact ⟨createVersion c d, getByVersionId_runMutations hfind later, rfl, rfl, rfl⟩

/-- C3: an `ifMatch` precondition carrying the current etag admits, and
after any subsequent successful mutation on the same chain a mutation
carrying that same old etag is rejected with PreconditionFailed. -/
theorem ifMatch_admits_exactly_once (stage stage2 : Stage) (c : BlobVersionChain)
    (cur : BlobVersion) (op : MutationOp) (pres : List Precondition)
    (c' : BlobVersionChain) (v : BlobVersion) (op2 : MutationOp)
    (hwf : ChainWF c) (hcur : getCurrent c = some cur)
    (h : runMutation stage c op pres = (c', Except.ok v)) :
    checkConditions c [Precondition.ifMatch cur.etag] = CheckResult.admitted ∧
    runMutation stage2 c' op2 [Precondition.ifMatch cur.etag] =
      (c', Except.error MutError.preconditionFailed) := by
  constructor
  · simp [checkConditions, hcur, checkOne]
  · rcases runMutation_ok h with ⟨d, _, _, hv, _⟩
    have hcur' : getCurrent c' = some v := getCurrent_after_ok hwf h
    have hne : v.etag ≠ cur.etag := by
      rw [hv]
      exact fun heq => cur_etag_ne_fresh hwf (getCurrent_mem hcur) heq.symm
    have hrej : checkConditions c' [Precondition.ifMatch cur.etag] =
        CheckResult.reject := by
      simp [checkConditions, hcur', checkOne, hne]
    unfold runMutation
    rw [hrej]

/-- C4: a rejected mutation leaves the chain completely unchanged, and a
first write to a nonexistent blob carrying an `ifNoneMatch`
precondition is admitted rather than rejected. -/
theorem reject_leaves_chain_unchanged :
    (∀ stage c op pres, checkConditions c pres = CheckResult.reject →
      runMutation stage c op pres = (c, Except.error MutError.preconditionFailed)) ∧
    (∀ c e, getCurrent c = none →
      checkConditions c [Precondition.ifNoneMatch e] = CheckResult.admitted) ∧
    (∀ stage c bytes hh mm e, getCurrent c = none →
      runMutation stage c (MutationOp.uploadContent bytes hh mm)
          [Precondition.ifNoneMatch e] =
        (appendAndPublish c (createVersion c ⟨bytes, hh, mm⟩),
          Except.ok (createVersion c ⟨bytes, hh, mm⟩))) := by
  refine ⟨fun stage c op pres hrej => ?_, fun c e hnone => ?_,
    fun stage c bytes hh mm e hnone => ?_⟩
  · unfold runMutation
    rw [hrej]
  · simp [checkConditions, hnone, checkOne]
  · have hok : checkConditions c [Precondition.ifNoneMatch e] =
        CheckResult.admitted := by
      simp [checkConditions, hnone, checkOne]
    unfold runMutation
    rw [hok]
    rfl

/-- C5: along any sequence of mutations the chain's versionIds are
strictly increasing under lexicographic string comparison, hence listed
pairwise distinct and in creation order. -/
theorem versionIds_strictly_increasing (stage : Stage) (c : BlobVersionChain)
    (ops : List (MutationOp × List Precondition)) (hwf : ChainWF c) :
    ((runMutations stage c ops).versions.map (fun v => v.versionId)).Pairwise
        (fun a b => a < b) ∧
      ((runMutations stage c ops).versions.map (fun v => v.versionId)).Nodup := by
  have hwf' := @chainWF_runMutations stage c hwf ops
  rw [hwf'.1]
  constructor
  · exact List.pairwise_map.mpr
      ((List.pairwise_lt_range _).imp fun h => versionIdOfSeq_lt h)
  · exact (List.nodup_range _).map fun a b hab => versionIdOfSeq_injective hab

/-- An empty block-list commit with no preconditions always succeeds
and publishes the zero-length draft. -/
theorem runMutation_empty_commit (stage : Stage) (c : BlobVersionChain)
    (hh : HttpHeaders) (mm : List (String × String)) :
    runMutation stage c (MutationOp.commitBlockList [] hh mm) [] =
      (appendAndPublish c (createVersion c ⟨"", hh, mm⟩),
        Except.ok (createVersion c ⟨"", hh, mm⟩)) := rfl

/-- C6: committing an empty block list succeeds with a zero-length
version, and a later empty commit on the same chain yields another
zero-length version whose versionId differs from every earlier
version's, the earlier empty one included. -/
theorem empty_commit_zero_length (stage stage2 : Stage) (c : BlobVersionChain)
    (hh1 hh2 : HttpHeaders) (mm1 mm2 : List (String × String))
    (later : List (MutationOp × List Precondition)) (hwf : ChainWF c) :
    ∃ c1 v1, runMutation stage c (MutationOp.commitBlockList [] hh1 mm1) [] =
        (c1, Except.ok v1) ∧ v1.contentLength = 0 ∧ v1.content = "" ∧
      ∃ c3 v2, runMutation stage (runMutations stage2 c1 later)
          (MutationOp.commitBlockList [] hh2 mm2) [] = (c3, Except.ok v2) ∧
        v2.contentLength = 0 ∧ v2.content = "" ∧
        v2.versionId ∉
          (runMutations stage2 c1 later).versions.map (fun w => w.versionId) ∧
        v1.versionId ∈
          (runMutations stage2 c1 later).versions.map (fun w => w.versionId) := by
  refine ⟨_, _, runMutation_empty_commit stage c hh1 mm1, rfl, rfl, ?_⟩
  set v1 := createVersion c ⟨"", hh1, mm1⟩ with hv1
  set c1 := appendAndPublish c v1 with hc1
  have hwf1 : ChainWF c1 := chainWF_appendAndPublish hwf _
  set c2 := runMutations stage2 c1 later with hc2
  have hwf2 : ChainWF c2 := chainWF_runMutations hwf1 later
  refine ⟨_, _, runMutation_empty_commit stage c2 hh2 mm2, rfl, rfl, ?_, ?_⟩
  · exact fresh_id_not_mem hwf2
  · apply mem_ids_runMutations (c := c1)
    rw [hc1]
    simp [appendAndPublish]

/-- Looking up any version other than the retagged one is unaffected by
`setTags`. -/
theorem find?_setTags_other (l : List BlobVersion) (vid w : String)
    (tags : List (String × String)) (hw : w ≠ vid) :
    (l.map fun v =>
        if v.versionId == vid then { v with tags := tags } else v).find?
      (fun v => v.versionId == w) = l.find? (fun v => v.versionId == w) := by
  induction l with
  | nil => rfl
  | cons x rest ih =>
    have hupd : ((if x.versionId == vid then { x with tags := tags } else x) :
        BlobVersion).versionId = x.versionId := by
      by_cases hxv : x.versionId == vid <;> simp [hxv]
    rw [List.map_cons, List.find?_cons, List.find?_cons, hupd]
    cases hxw : (x.versionId == w) with
    | false => exact ih
    | true =>
      have hxveq : x.versionId = w := by simpa using hxw
      have hxv : (x.versionId == vid) = false :=
        beq_eq_false_iff_ne.mpr (by rw [hxveq]; exact hw)
      simp [hxv]

/-- C7: `setTags` on a version appends no new version, leaves the
current pointer alone, changes no version's versionId, etag, or
content, and is invisible on every other version of the chain. -/
theorem setTags_frame (c : BlobVersionChain) (vid : String)
    (tags : List (String × String)) :
    (setTags c vid tags).currentVersionId = c.currentVersionId ∧
    (setTags c vid tags).versions.length = c.versions.length ∧
    (setTags c vid tags).versions.map (fun v => (v.versionId, v.etag, v.content)) =
      c.versions.map (fun v => (v.versionId, v.etag, v.content)) ∧
    ∀ w, w ≠ vid → getByVersionId (setTags c vid tags) w = getByVersionId c w := by
  refine ⟨rfl, by simp [setTags], ?_, ?_⟩
  · simp only [setTags, List.map_map]
    apply List.map_congr_left
    intro v _
    by_cases h : v.versionId == vid <;> simp [Function.comp, h]
  · intro w hw
    unfold getByVersionId setTags
    exact find?_setTags_other c.versions vid w tags hw

/-! Concrete sample chains used by the witnesses below. -/

instance (c : BlobVersionChain) : Decidable (ChainWF c) := by
  unfold ChainWF
  infer_instance

/-- A first sample upload request. -/
def opA : MutationOp := MutationOp.uploadContent "one" noHeaders []

/-- A second sample upload request. -/
def opB : MutationOp := MutationOp.uploadContent "two" noHeaders []

/-- The version published by running `opA` on the empty chain. -/
def verA : BlobVersion := createVersion emptyChain ⟨"one", noHeaders, []⟩

/-- The chain after running `opA` on the empty chain. -/
def chainA : BlobVersionChain := appendAndPublish emptyChain verA

/-- The version published by running `opB` on `chainA`. -/
def verB : BlobVersion := createVersion chainA ⟨"two", noHeaders, []⟩

/-- The chain after running `opB` on `chainA`. -/
def chainB : BlobVersionChain := appendAndPublish chainA verB

theorem mutation_creates_fresh_current_witness :
    verA.versionId ∉ emptyChain.versions.map (fun w => w.versionId) ∧
      getCurrent chainA = some verA :=
  mutation_creates_fresh_current [] emptyChain opA [] chainA verA (by decide) rfl

theorem version_history_preserved_witness :
    ∃ v', getByVersionId (runMutations [] chainA [(opB, [])]) verA.versionId =
        some v' ∧ v'.content = "one" ∧ v'.httpHeaders = noHeaders ∧
      v'.metadata = [] :=
  (version_history_preserved [] [] emptyChain opA [] chainA verA
    ⟨"one", noHeaders, []⟩ (by decide) rfl rfl).2.2.2 [(opB, [])]

theorem ifMatch_admits_exactly_once_witness :
    checkConditions chainA [Precondition.ifMatch verA.etag] = CheckResult.admitted ∧
      runMutation [] chainB opA [Precondition.ifMatch verA.etag] =
        (chainB, Except.error MutError.preconditionFailed) :=
  ifMatch_admits_exactly_once [] [] chainA verA opB [] chainB verB opA
    (by decide) rfl rfl

theorem reject_leaves_chain_unchanged_witness :
    runMutation [] chainA opB [Precondition.ifMatch "stale"] =
        (chainA, Except.error MutError.preconditionFailed) ∧
      checkConditions emptyChain [Precondition.ifNoneMatch "x"] =
        CheckResult.admitted ∧
      runMutation [] emptyChain (MutationOp.uploadContent "one" noHeaders [])
          [Precondition.ifNoneMatch "x"] =
        (appendAndPublish emptyChain (createVersion emptyChain ⟨"one", noHeaders, []⟩),
          Except.ok (createVersion emptyChain ⟨"one", noHeaders, []⟩)) :=
  ⟨reject_leaves_chain_unchanged.1 [] chainA opB [Precondition.ifMatch "stale"]
      (by decide),
    reject_leaves_chain_unchanged.2.1 emptyChain "x" (by decide),
    reject_leaves_chain_unchanged.2.2 [] emptyChain "one" noHeaders [] "x"
      (by decide)⟩

theorem versionIds_strictly_increasing_witness :
    (((runMutations [] emptyChain [(opA, []), (opB, [])]).versions.map
        (fun v => v.versionId)).Pairwise (fun a b => a < b)) ∧
      ((runMutations [] emptyChain [(opA, []), (opB, [])]).versions.map
        (fun v => v.versionId)).Nodup :=
  versionIds_strictly_increasing [] emptyChain [(opA, []), (opB, [])] (by decide)

theorem empty_commit_zero_length_witness :
    ∃ c1 v1, runMutation [] chainA (MutationOp.commitBlockList [] noHeaders []) [] =
        (c1, Except.ok v1) ∧ v1.contentLength = 0 ∧ v1.content = "" ∧
      ∃ c3 v2, runMutation [] (runMutations [] c1 [(opB, [])])
          (MutationOp.commitBlockList [] noHeaders []) [] = (c3, Except.ok v2) ∧
        v2.contentLength = 0 ∧ v2.content = "" ∧
        v2.versionId ∉
          (runMutations [] c1 [(opB, [])]).versions.map (fun w => w.versionId) ∧
        v1.versionId ∈
          (runMutations [] c1 [(opB, [])]).versions.map (fun w => w.versionId) :=
  empty_commit_zero_length [] [] chainA noHeaders noHeaders [] [] [(opB, [])]
    (by decide)

theorem setTags_frame_witness :
    (setTags chainB verA.versionId [("env", "test")]).versions.map
        (fun v => (v.versionId, v.etag, v.content)) =
      chainB.versions.map (fun v => (v.versionId, v.etag, v.content)) ∧
    getByVersionId (setTags chainB verA.versionId [("env", "test")])
        verB.versionId = getByVersionId chainB verB.versionId :=
  ⟨(setTags_frame chainB verA.versionId [("env", "test")]).2.2.1,
    (setTags_frame chainB verA.versionId [("env", "test")]).2.2.2 verB.versionId
      (by decide)⟩
